import Mathlib

/-!
# Verification of `go-csv-to-json` (`src/main.go`)

A shallow embedding of the converter in `src/main.go`.  Strings are
modelled as `List Char` so that every definition reduces in the kernel.

The reader side (`processCsvFile`) uses Go's `encoding/csv`.  That parser
is modelled here for the unquoted inputs this tool targets:

* the input is split into lines at `'\n'`; blank lines are skipped
  (Go's `csv.Reader` ignores blank lines);
* each remaining line is split at the configured delimiter;
* `csv.Reader.FieldsPerRecord` is left at its default `0` by the Go code,
  so after the header is read every subsequent record whose field count
  differs from the header's yields `csv.ErrFieldCount`, a non-`io.EOF`
  error, which `processCsvFile` routes to `exitGracefully` (process exit).
-/

namespace CsvToJson

/-- A parsed record, as built by `processLine` in `src/main.go`:
an association list modelling Go's `map[string]string` with insertion
semantics (an existing key is overwritten in place, a new key appended). -/
abbrev Rec := List (List Char × List Char)

/-- Splitting a character list at a delimiter (model of the field/line
splitting `encoding/csv` performs on unquoted input).  `cur` is the
reversed chunk accumulated so far. -/
def splitCharAux (delim : Char) (cur : List Char) : List Char → List (List Char)
  | [] => [cur.reverse]
  | c :: rest =>
    if c = delim then cur.reverse :: splitCharAux delim [] rest
    else splitCharAux delim (c :: cur) rest

/-- Model of `csv.NewReader(...).ReadAll`-style tokenisation for unquoted
input: lines at `'\n'` (blank lines ignored, as `encoding/csv` does),
fields at the delimiter. -/
def parseCsv (delim : Char) (content : List Char) : List (List (List Char)) :=
  ((splitCharAux '\n' [] content).filter (· ≠ [])).map (splitCharAux delim [])

/-- `recordMap[name] = value` on the association-list model of a Go map:
overwrite in place if the key is present, append otherwise. -/
def mapInsert (m : Rec) (k v : List Char) : Rec :=
  if m.any (fun p => p.1 = k) then
    m.map (fun p => if p.1 = k then (k, v) else p)
  else m ++ [(k, v)]

/-- `recordMap[name]` lookup on the association-list model. -/
def mapLookup (k : List Char) (m : Rec) : Option (List Char) :=
  (m.find? (fun p => p.1 = k)).map Prod.snd

/-- `processLine` from `src/main.go`: reject the line if its field count
differs from the header's, otherwise pair each field positionally with
its header name in a fresh map. -/
def processLine (headers dataList : List (List Char)) : Option Rec :=
  if dataList.length ≠ headers.length then none
  else some (((headers.zip dataList).foldl (fun m p => mapInsert m p.1 p.2) []))

/-- Outcome of the reader goroutine `processCsvFile`:
either the channel was closed normally after emitting `records`
(`io.EOF` reached), or the process exited via `exitGracefully` after
emitting `records` (any other error from `reader.Read`). -/
inductive ReaderResult where
  | closed (records : List Rec)
  | fatal (records : List Rec)
  deriving DecidableEq, Repr

/-- The read loop of `processCsvFile` after the header has been read.
Because the Go code leaves `reader.FieldsPerRecord` at `0`, the `csv`
reader itself checks each row's field count against the header's and
returns `csv.ErrFieldCount` on mismatch; `processCsvFile` treats that
non-`io.EOF` error as fatal (`exitGracefully`).  The `processLine`
failure branch (print a diagnostic and `continue`) is kept faithfully,
although it is unreachable: when the reader returns no error the field
count already matches. -/
def readLoop (headers : List (List Char)) : List (List (List Char)) → ReaderResult
  | [] => .closed []
  | line :: rest =>
    if line.length ≠ headers.length then .fatal []
    else
      match processLine headers line with
      | none => readLoop headers rest
      | some r =>
        match readLoop headers rest with
        | .closed rs => .closed (r :: rs)
        | .fatal rs => .fatal (r :: rs)

/-- `processCsvFile` from `src/main.go`: read the header (an empty input
makes the header read fail, `check(err)` exits), then run the read loop. -/
def processCsvFile (delim : Char) (content : List Char) : ReaderResult :=
  match parseCsv delim content with
  | [] => .fatal []
  | headers :: rows => readLoop headers rows

/-! ## JSON serialization (model of `encoding/json` on `map[string]string`) -/

/-- Lower-case hex digit, as `encoding/json` uses for `\u00XX` escapes. -/
def hexDigitChar (n : Nat) : Char :=
  if n < 10 then Char.ofNat (48 + n) else Char.ofNat (87 + n)

/-- The escape `encoding/json` (default encoder, HTML escaping on) applies
to one character of a string value: `"`, `\`, `\n`, `\r`, `\t` get their
short escapes, `<` `>` `&` and the remaining control characters get
`\u00XX`, U+2028/U+2029 get `\u202X`, everything else is literal. -/
def jsonEscapeChar (c : Char) : List Char :=
  if c = '"' then ['\\', '"']
  else if c = '\\' then ['\\', '\\']
  else if c = '\n' then ['\\', 'n']
  else if c = '\r' then ['\\', 'r']
  else if c = '\t' then ['\\', 't']
  else if c = '<' ∨ c = '>' ∨ c = '&' then
    ['\\', 'u', '0', '0', hexDigitChar (c.toNat / 16), hexDigitChar (c.toNat % 16)]
  else if c.toNat < 32 then
    ['\\', 'u', '0', '0', hexDigitChar (c.toNat / 16), hexDigitChar (c.toNat % 16)]
  else if c.toNat = 8232 ∨ c.toNat = 8233 then
    ['\\', 'u', '2', '0', '2', hexDigitChar (c.toNat % 16)]
  else [c]

/-- A JSON string literal: quote, escaped body, quote. -/
def quoteJson (s : List Char) : List Char :=
  '"' :: (s.map jsonEscapeChar).flatten ++ ['"']

/-- Byte-order "less than" on strings, as Go compares the sorted map keys
(code-point order coincides with UTF-8 byte order). -/
def strLtB : List Char → List Char → Bool
  | [], [] => false
  | [], _ :: _ => true
  | _ :: _, [] => false
  | a :: as, b :: bs =>
    if a.toNat < b.toNat then true
    else if b.toNat < a.toNat then false
    else strLtB as bs

/-- Byte-order "less or equal" on strings. -/
def strLeB (a b : List Char) : Bool := !(strLtB b a)

/-- Order on map entries: by key, in byte order — the order in which
`encoding/json` serializes the keys of a Go map. -/
def entryLe (p q : List Char × List Char) : Prop := strLeB p.1 q.1 = true

/-- Strict version of `entryLe`, used to show sorted entry lists with
distinct keys are unique. -/
def entryLt (p q : List Char × List Char) : Prop := strLtB p.1 q.1 = true

instance : DecidableRel entryLe := fun p q => instDecidableEqBool (strLeB p.1 q.1) true

/-- `encoding/json` serializes a Go map by sorting its keys; the map's
internal (insertion/iteration) order is irrelevant to the output. -/
def sortEntries (m : Rec) : Rec := List.insertionSort entryLe m

/-- Join chunks with a separator between consecutive chunks (how the
serializer emits the comma-separated members of an object). -/
def joinSep (sep : List Char) : List (List Char) → List Char
  | [] => []
  | [x] => x
  | x :: y :: rest => x ++ sep ++ joinSep sep (y :: rest)

/-- One `"key":"value"` pair of `json.Marshal` output. -/
def compactEntry (p : List Char × List Char) : List Char :=
  quoteJson p.1 ++ ':' :: quoteJson p.2

/-- `json.Marshal` of a `map[string]string`: keys sorted, no whitespace. -/
def compactObj (es : Rec) : List Char :=
  '{' :: joinSep [','] (es.map compactEntry) ++ ['}']

/-- One `"key": "value"` line of `json.MarshalIndent(record, "   ", "   ")`
output: prefix + one indent (six spaces), then the pair with a space
after the colon. -/
def prettyEntry (p : List Char × List Char) : List Char :=
  [' ', ' ', ' ', ' ', ' ', ' '] ++ quoteJson p.1 ++ ':' :: ' ' :: quoteJson p.2

/-- `json.MarshalIndent(record, "   ", "   ")` of a `map[string]string`. -/
def prettyObj (es : Rec) : List Char :=
  if es = [] then ['{', '}']
  else
    '{' :: '\n' :: joinSep [',', '\n'] (es.map prettyEntry) ++
      '\n' :: ' ' :: ' ' :: ' ' :: ['}']

/-- `getJSONFunc` from `src/main.go`: the per-record serializer and the
break string.  In pretty mode the serializer prepends three spaces to the
indented object; otherwise it is plain `json.Marshal`. -/
def getJSONFunc (pretty : Bool) : (Rec → List Char) × List Char :=
  if pretty then (fun r => ' ' :: ' ' :: ' ' :: prettyObj (sortEntries r), ['\n'])
  else (fun r => compactObj (sortEntries r), [])

/-! ## The writer goroutine `writeJSONFile` -/

/-- The loop of `writeJSONFile` as a trace of `writeString(data, close)`
calls: while the channel yields records, each record after the first is
preceded by `","+breakLine`; on channel closure `breakLine+"]"` is
written with the close flag set. -/
def writerLoopTrace (jf : Rec → List Char) (bl : List Char) :
    Bool → List Rec → List (List Char × Bool)
  | _, [] => [(bl ++ [']'], true)]
  | first, r :: rs =>
    (if first then [] else [(',' :: bl, false)]) ++
      (jf r, false) :: writerLoopTrace jf bl false rs

/-- The full trace of `writeString` calls made by `writeJSONFile` when the
channel delivers `records` and is then closed: `"["+breakLine` first,
then the loop. -/
def writeTrace (pretty : Bool) (records : List Rec) : List (List Char × Bool) :=
  ('[' :: (getJSONFunc pretty).2, false) ::
    writerLoopTrace (getJSONFunc pretty).1 (getJSONFunc pretty).2 true records

/-- The bytes `writeJSONFile` writes to the output file: the
concatenation of the trace's data chunks. -/
def writeOut (pretty : Bool) (records : List Rec) : List Char :=
  ((writeTrace pretty records).map Prod.fst).flatten

/-- The whole pipeline on one input: reader then writer.  `none` when the
reader hits its fatal path (`exitGracefully`), in which case the writer
never sees the channel close and the complete output is never written. -/
def convert (delim : Char) (pretty : Bool) (content : List Char) : Option (List Char) :=
  match processCsvFile delim content with
  | .closed records => some (writeOut pretty records)
  | .fatal _ => none

/-! ## Output path derivation (`createStringWriter`) and `main` validation

Models of the `path/filepath` functions the Go code calls, for
slash-separated (Unix) paths. -/

/-- `filepath.Ext`, scanning the reversed path: accumulate characters
until a dot (return `"." + accumulated`) or a path separator / the start
of the string (return `""`). -/
def extRevAux (acc : List Char) : List Char → List Char
  | [] => []
  | c :: rest =>
    if c = '/' then []
    else if c = '.' then '.' :: acc
    else extRevAux (c :: acc) rest

/-- `filepath.Ext`: the suffix of the final path element starting at its
last dot, empty if there is none. -/
def filepathExt (p : List Char) : List Char := extRevAux [] p.reverse

/-- `strings.TrimSuffix`: drop the suffix if present, else leave alone. -/
def trimSuffixL (s suf : List Char) : List Char :=
  if suf.isSuffixOf s then s.take (s.length - suf.length) else s

/-- `filepath.Base`: `"."` for the empty path, `"/"` for all-slash paths,
otherwise the last element after trailing slashes are removed. -/
def baseL (p : List Char) : List Char :=
  if p = [] then ['.']
  else if p.reverse.dropWhile (· = '/') = [] then ['/']
  else ((p.reverse.dropWhile (· = '/')).takeWhile (· ≠ '/')).reverse

/-- `filepath.Clean`'s element processing: skip `"."` and empty elements
(done by the caller's filter), pop on `".."` unless there is nothing to
pop — in which case a rooted path drops the `".."` and a relative path
keeps it. -/
def cleanSegsAux (rooted : Bool) (acc : List (List Char)) :
    List (List Char) → List (List Char)
  | [] => acc
  | s :: rest =>
    if s = ['.', '.'] then
      match acc.getLast? with
      | some l =>
        if l = ['.', '.'] then cleanSegsAux rooted (acc ++ [s]) rest
        else cleanSegsAux rooted acc.dropLast rest
      | none =>
        if rooted then cleanSegsAux rooted [] rest
        else cleanSegsAux rooted [s] rest
    else cleanSegsAux rooted (acc ++ [s]) rest

/-- `filepath.Clean` for slash-separated paths: split into elements,
drop empty and `"."` elements, resolve `".."`, and rejoin (`"."` for an
empty relative result, `"/"` for an empty rooted result). -/
def cleanL (p : List Char) : List Char :=
  if p.head? = some '/' then
    '/' :: joinSep ['/'] (cleanSegsAux true []
      ((splitCharAux '/' [] p).filter (fun s => s ≠ [] ∧ s ≠ ['.'])))
  else if cleanSegsAux false []
      ((splitCharAux '/' [] p).filter (fun s => s ≠ [] ∧ s ≠ ['.'])) = [] then
    ['.']
  else
    joinSep ['/'] (cleanSegsAux false []
      ((splitCharAux '/' [] p).filter (fun s => s ≠ [] ∧ s ≠ ['.'])))

/-- `filepath.Dir`: everything up to and including the final slash
(empty if there is no slash), cleaned. -/
def dirL (p : List Char) : List Char :=
  cleanL ((p.reverse.dropWhile (· ≠ '/')).reverse)

/-- The output path computed by `createStringWriter` in `src/main.go`:
`fmt.Sprintf("%s/%s", filepath.Dir(csvPath),
strings.TrimSuffix(filepath.Base(csvPath), ".csv") + ".json")`. -/
def finalLocation (csvPath : List Char) : List Char :=
  dirL csvPath ++ '/' :: trimSuffixL (baseL csvPath) ['.', 'c', 's', 'v'] ++
    ['.', 'j', 's', 'o', 'n']

/-- Result of `checkIfValidFile` in `src/main.go`: the extension is
checked first, then `os.Stat`'s not-exist condition. -/
inductive CheckResult where
  | ok | notCsv | notExist
  deriving DecidableEq, Repr

/-- `checkIfValidFile` from `src/main.go`, with the file system abstracted
as the predicate `statNotExist` (`os.Stat` fails with `os.IsNotExist`). -/
def checkIfValidFile (statNotExist : List Char → Bool) (filename : List Char) :
    CheckResult :=
  if filepathExt filename ≠ ['.', 'c', 's', 'v'] then .notCsv
  else if statNotExist filename then .notExist
  else .ok

/-- Observable outcome of `main`: either `exitGracefully` fires during
configuration/validation — before the goroutines are started, hence
before `createStringWriter`'s `os.Create` can run — or the pipeline runs,
creating the output file at the derived path. -/
inductive MainOutcome where
  | earlyExit
  | pipeline (outPath : List Char) (output : Option (List Char))
  deriving DecidableEq, Repr

/-- `main` from `src/main.go`: `getFileData` (argument presence and
separator validation), then `checkIfValidFile`, then the two goroutines.
`os.Create` of the output file happens only inside `writeJSONFile`,
i.e. only in the `pipeline` outcome. -/
def mainRun (hasArg : Bool) (separator : List Char)
    (statNotExist : List Char → Bool) (path : List Char) (pretty : Bool)
    (content : List Char) : MainOutcome :=
  if ¬ hasArg then .earlyExit
  else if ¬ (separator = ['c', 'o', 'm', 'm', 'a'] ∨
      separator = ['s', 'e', 'm', 'i', 'c', 'o', 'l', 'o', 'n']) then .earlyExit
  else
    match checkIfValidFile statNotExist path with
    | .ok =>
      .pipeline (finalLocation path)
        (convert
          (if separator = ['s', 'e', 'm', 'i', 'c', 'o', 'l', 'o', 'n'] then ';' else ',')
          pretty content)
    | _ => .earlyExit

/-! ## JSON whitespace, for comparing pretty and compact output

A scanner that removes the whitespace standing outside JSON string
literals.  Two serializations of the same data that agree after this
stripping differ only in inter-token whitespace, hence parse alike. -/

/-- JSON inter-token whitespace. -/
def isWsChar (c : Char) : Bool := c = ' ' || c = '\n' || c = '\t' || c = '\r'

/-- Scanner state: (inside a string literal, just after a backslash). -/
def scanStep (s : Bool × Bool) (c : Char) : Bool × Bool :=
  match s with
  | (false, _) => if c = '"' then (true, false) else (false, false)
  | (true, false) =>
    if c = '\\' then (true, true)
    else if c = '"' then (false, false)
    else (true, false)
  | (true, true) => (true, false)

/-- Scanner state after reading a chunk. -/
def scanSt (s : Bool × Bool) : List Char → Bool × Bool
  | [] => s
  | c :: rest => scanSt (scanStep s c) rest

/-- Remove whitespace outside string literals, starting in state `s`. -/
def stripAux (s : Bool × Bool) : List Char → List Char
  | [] => []
  | c :: rest =>
    if !s.1 && isWsChar c then stripAux (scanStep s c) rest
    else c :: stripAux (scanStep s c) rest

/-- Remove all whitespace standing outside string literals. -/
def stripJsonWs (l : List Char) : List Char := stripAux (false, false) l

/-! ## The Writer state machine of the spec -/

/-- Writer states: waiting for the first record, streaming records,
closed after the channel closed. -/
inductive WriterState where
  | awaitingFirst | streaming | closedSt
  deriving DecidableEq, Repr

/-- One Writer transition on a channel event (`some r` = a record was
received, `none` = the channel closed), together with the
`writeString` calls it performs. -/
def writerStep (pretty : Bool) :
    WriterState → Option Rec → WriterState × List (List Char × Bool)
  | .awaitingFirst, some r => (.streaming, [((getJSONFunc pretty).1 r, false)])
  | .streaming, some r =>
    (.streaming,
      [(',' :: (getJSONFunc pretty).2, false), ((getJSONFunc pretty).1 r, false)])
  | .awaitingFirst, none => (.closedSt, [((getJSONFunc pretty).2 ++ [']'], true)])
  | .streaming, none => (.closedSt, [((getJSONFunc pretty).2 ++ [']'], true)])
  | .closedSt, _ => (.closedSt, [])

/-- Run the Writer state machine over a sequence of channel events. -/
def writerRun (pretty : Bool) (st : WriterState) :
    List (Option Rec) → WriterState × List (List Char × Bool)
  | [] => (st, [])
  | m :: ms =>
    let s₁ := writerStep pretty st m
    let s₂ := writerRun pretty s₁.1 ms
    (s₂.1, s₁.2 ++ s₂.2)

/-- Progress order on Writer states: `AwaitingFirst → Streaming → Closed`. -/
def stateRank : WriterState → Nat
  | .awaitingFirst => 0
  | .streaming => 1
  | .closedSt => 2

/-- `a` strips (whitespace outside strings removed) to `b`, ending
outside any string literal — the composable building block for comparing
pretty output with compact output. -/
def StripsTo (a b : List Char) : Prop :=
  stripAux (false, false) a = b ∧ scanSt (false, false) a = (false, false)

/-- The bytes the `writeJSONFile` loop writes after the opening bracket. -/
def loopOut (pretty first : Bool) (rs : List Rec) : List Char :=
  ((writerLoopTrace (getJSONFunc pretty).1 (getJSONFunc pretty).2
      first rs).map Prod.fst).flatten

/-! ## Reader lemmas -/

/-- Inserting a key that is absent from the map appends the pair. -/
theorem mapInsert_fresh (m : Rec) (k v : List Char)
    (h : ∀ q ∈ m, q.1 ≠ k) : mapInsert m k v = m ++ [(k, v)] := by
  unfold mapInsert
  rw [if_neg]
  intro hx
  obtain ⟨q, hq, hqk⟩ := List.any_eq_true.mp hx
  exact h q hq (by simpa using hqk)

/-- Building a map from pairs whose keys are distinct and absent from the
accumulator just appends the pairs. -/
theorem foldl_mapInsert_fresh :
    ∀ (ps m : Rec), (ps.map Prod.fst).Nodup →
      (∀ p ∈ ps, ∀ q ∈ m, q.1 ≠ p.1) →
      ps.foldl (fun acc p => mapInsert acc p.1 p.2) m = m ++ ps
  | [], m, _, _ => by simp
  | p :: ps, m, hnd, hfresh => by
    simp only [List.foldl_cons]
    rw [mapInsert_fresh m p.1 p.2 (fun q hq => hfresh p (by simp) q hq)]
    have hnd' : (ps.map Prod.fst).Nodup := (List.nodup_cons.mp (by simpa using hnd)).2
    have hmem : p.1 ∉ ps.map Prod.fst := (List.nodup_cons.mp (by simpa using hnd)).1
    rw [foldl_mapInsert_fresh ps (m ++ [(p.1, p.2)]) hnd' ?_]
    · simp
    · intro r hr q hq
      rcases List.mem_append.mp hq with h1 | h2
      · exact hfresh r (by simp [hr]) q h1
      · have : q = (p.1, p.2) := by simpa using h2
        subst this
        intro he
        exact hmem (by simpa [← he] using List.mem_map_of_mem Prod.fst hr)

/-- With duplicate-free headers, `processLine` on a row of matching length
returns exactly the positional pairing of headers with fields. -/
theorem processLine_eq_zip (headers dataList : List (List Char))
    (hnd : headers.Nodup) (hlen : dataList.length = headers.length) :
    processLine headers dataList = some (headers.zip dataList) := by
  unfold processLine
  rw [if_neg (by omega)]
  congr 1
  have hkeys : (headers.zip dataList).map Prod.fst = headers :=
    List.map_fst_zip _ _ (by omega)
  have h := foldl_mapInsert_fresh (headers.zip dataList) []
    (by rw [hkeys]; exact hnd) (by simp)
  simpa using h

/-- When every row's field count matches the header's, the read loop
closes the channel normally after emitting one record per row, in
source order. -/
theorem readLoop_all_match (headers : List (List Char)) (hnd : headers.Nodup) :
    ∀ rows : List (List (List Char)),
      (∀ r ∈ rows, r.length = headers.length) →
      readLoop headers rows = .closed (rows.map (fun r => headers.zip r))
  | [], _ => rfl
  | row :: rows, hlen => by
    have h1 : row.length = headers.length := hlen row (by simp)
    simp only [readLoop, if_neg (by omega : ¬ row.length ≠ headers.length),
      processLine_eq_zip headers row hnd h1,
      readLoop_all_match headers hnd rows (fun r hr => hlen r (by simp [hr])),
      List.map_cons]

/-! ## Claim theorems -/

/-- C1 (code bug evidence): on the spec's Scenario C input
`a,b\n1,2\n3` the reader does not skip the short row and continue — Go's
`csv.Reader` (with `FieldsPerRecord` left at its default) returns
`ErrFieldCount` for row `3`, `processCsvFile` treats that non-EOF error
as fatal, and the process exits non-zero after emitting only the first
record; the channel is never closed, so the complete output
`[{"a":"1","b":"2"}]` is never written. -/
theorem c1_field_count_mismatch_is_fatal :
    processCsvFile ',' "a,b\n1,2\n3".toList =
      .fatal [[(['a'], ['1']), (['b'], ['2'])]] ∧
    convert ',' false "a,b\n1,2\n3".toList = none :=
  ⟨rfl, rfl⟩

/-- C2: for a header of unique field names and rows whose field counts
all match the header's, the reader emits exactly one record per row, in
row order, and each record pairs the headers positionally with the
fields (so it has exactly the header's keys); in particular scenario A,
`a,b\n1,2\n3,4` in non-pretty mode, produces exactly
`[{"a":"1","b":"2"},{"a":"3","b":"4"}]`. -/
theorem c2_matched_rows_yield_all_records (headers : List (List Char))
    (rows : List (List (List Char))) (hnd : headers.Nodup)
    (hlen : ∀ r ∈ rows, r.length = headers.length) :
    (readLoop headers rows = .closed (rows.map (fun r => headers.zip r)) ∧
      (rows.map (fun r => headers.zip r)).length = rows.length ∧
      ∀ rec ∈ rows.map (fun r => headers.zip r), rec.map Prod.fst = headers) ∧
    convert ',' false "a,b\n1,2\n3,4".toList =
      some "[\x7b\"a\":\"1\",\"b\":\"2\"\x7d,\x7b\"a\":\"3\",\"b\":\"4\"\x7d]".toList := by
  refine ⟨⟨readLoop_all_match headers hnd rows hlen, by simp, ?_⟩, rfl⟩
  intro rec hrec
  simp only [List.mem_map] at hrec
  obtain ⟨r, hr, rfl⟩ := hrec
  exact List.map_fst_zip _ _ (le_of_eq (hlen r hr).symm)

/-- C2 witness: scenario A's own rows instantiate the general statement. -/
theorem c2_matched_rows_yield_all_records_witness :
    (readLoop [['a'], ['b']] [[['1'], ['2']], [['3'], ['4']]] =
        .closed ([[['1'], ['2']], [['3'], ['4']]].map
          (fun r => [['a'], ['b']].zip r)) ∧
      ([[['1'], ['2']], [['3'], ['4']]].map
          (fun r => [['a'], ['b']].zip r)).length =
        [[['1'], ['2']], [['3'], ['4']]].length ∧
      ∀ rec ∈ [[['1'], ['2']], [['3'], ['4']]].map
          (fun r => [['a'], ['b']].zip r),
        rec.map Prod.fst = [['a'], ['b']]) ∧
    convert ',' false "a,b\n1,2\n3,4".toList =
      some "[\x7b\"a\":\"1\",\"b\":\"2\"\x7d,\x7b\"a\":\"3\",\"b\":\"4\"\x7d]".toList :=
  c2_matched_rows_yield_all_records [['a'], ['b']] [[['1'], ['2']], [['3'], ['4']]]
    (by decide) (by decide)

/-- C4: an input consisting of only a header row, `a,b\n`, converts to
the empty JSON array `[]`. -/
theorem c4_header_only_yields_empty_array :
    convert ',' false "a,b\n".toList = some "[]".toList :=
  rfl

/-! ## Map lemmas for duplicate headers (C10) -/

/-- Overwriting a key in place does not change any entry's key. -/
theorem mapInsert_key_preserved (k v : List Char) (p : List Char × List Char) :
    ((fun q => if q.1 = k then (k, v) else q) p).1 = p.1 := by
  by_cases h : p.1 = k <;> simp [h]

/-- `mapLookup` after `mapInsert`: the inserted key reads back the new
value, other keys are untouched. -/
theorem mapLookup_mapInsert (m : Rec) (k' v k : List Char) :
    mapLookup k (mapInsert m k' v) =
      if k' = k then some v else mapLookup k m := by
  by_cases hany : m.any (fun p => p.1 = k') = true
  · unfold mapInsert mapLookup
    rw [if_pos hany, List.find?_map]
    have hpred : ((fun p : List Char × List Char => decide (p.1 = k)) ∘
        (fun q => if q.1 = k' then (k', v) else q)) =
        (fun p : List Char × List Char => decide (p.1 = k)) := by
      funext p
      simp only [Function.comp_apply]
      congr 1
      rw [show ((fun q : List Char × List Char =>
        if q.1 = k' then (k', v) else q) p).1 = p.1 from by
          by_cases h : p.1 = k' <;> simp [h]]
    rw [hpred]
    by_cases hk : k' = k
    · subst hk
      obtain ⟨q, hq, hqk⟩ := List.any_eq_true.mp hany
      have hsome : (m.find? fun p => decide (p.1 = k')).isSome :=
        List.find?_isSome.mpr ⟨q, hq, hqk⟩
      obtain ⟨r, hr⟩ := Option.isSome_iff_exists.mp hsome
      have hrk : r.1 = k' := by simpa using List.find?_some hr
      rw [if_pos rfl, hr]
      simp [hrk]
    · rw [if_neg hk]
      cases hfind : m.find? fun p => decide (p.1 = k) with
      | none => rfl
      | some r =>
        have hrk : r.1 = k := by simpa using List.find?_some hfind
        have hr : (if r.1 = k' then (k', v) else r) = r := by
          rw [if_neg (by rw [hrk]; exact fun h => hk h.symm)]
        simp [hr]
  · have hall : ∀ p ∈ m, p.1 ≠ k' := fun p hp he =>
      hany (List.any_eq_true.mpr ⟨p, hp, by simp [he]⟩)
    unfold mapInsert mapLookup
    rw [if_neg hany, List.find?_append]
    by_cases hk : k' = k
    · subst hk
      have hnone : (m.find? fun p => decide (p.1 = k')) = none :=
        List.find?_eq_none.mpr (fun p hp => by simpa using hall p hp)
      rw [if_pos rfl, hnone]
      simp [List.find?]
    · rw [if_neg hk]
      have h2 : ([((k', v))].find? fun p => decide (p.1 = k)) = none := by
        simp [List.find?, hk]
      rw [h2]
      simp

/-- `mapLookup` over the fold that builds a record: the value read back
at `k` comes from the last pair of `ps` whose key is `k`, falling back to
the accumulator. -/
theorem mapLookup_foldl (k : List Char) :
    ∀ (ps m : Rec),
      mapLookup k (ps.foldl (fun acc p => mapInsert acc p.1 p.2) m) =
        ((ps.reverse.find? (fun p => p.1 = k)).map Prod.snd).or (mapLookup k m) := by
  intro ps
  induction ps using List.reverseRecOn with
  | nil => simp
  | append_singleton qs p ih =>
    intro m
    rw [List.foldl_append]
    simp only [List.foldl_cons, List.foldl_nil]
    rw [mapLookup_mapInsert, List.reverse_append]
    simp only [List.reverse_cons, List.reverse_nil, List.nil_append,
      List.singleton_append, List.find?]
    by_cases hk : p.1 = k
    · simp [hk]
    · simp only [hk, decide_eq_true_eq, if_neg]
      rw [ih m]
      simp [hk]

/-- Membership in the keys of `mapInsert`. -/
theorem mem_keys_mapInsert (m : Rec) (k v k' : List Char) :
    k' ∈ (mapInsert m k v).map Prod.fst ↔ k' ∈ m.map Prod.fst ∨ k' = k := by
  unfold mapInsert
  by_cases hany : m.any (fun p => p.1 = k) = true
  · rw [if_pos hany, List.map_map]
    have : (Prod.fst ∘ fun q : List Char × List Char =>
        if q.1 = k then (k, v) else q) = Prod.fst := by
      funext p
      by_cases h : p.1 = k <;> simp [h]
    rw [this]
    obtain ⟨q, hq, hqk⟩ := List.any_eq_true.mp hany
    constructor
    · exact Or.inl
    · rintro (h | rfl)
      · exact h
      · exact (by simpa using hqk) ▸ List.mem_map_of_mem Prod.fst hq
  · rw [if_neg hany]
    simp

/-- `mapInsert` preserves distinctness of keys. -/
theorem keys_mapInsert_nodup (m : Rec) (k v : List Char)
    (h : (m.map Prod.fst).Nodup) : ((mapInsert m k v).map Prod.fst).Nodup := by
  unfold mapInsert
  by_cases hany : m.any (fun p => p.1 = k) = true
  · rw [if_pos hany, List.map_map]
    have : (Prod.fst ∘ fun q : List Char × List Char =>
        if q.1 = k then (k, v) else q) = Prod.fst := by
      funext p
      by_cases hp : p.1 = k <;> simp [hp]
    rw [this]; exact h
  · rw [if_neg hany]
    have hk : k ∉ m.map Prod.fst := by
      intro hmem
      obtain ⟨p, hp, hpk⟩ := List.mem_map.mp hmem
      exact hany (List.any_eq_true.mpr ⟨p, hp, by simp [hpk]⟩)
    simp only [List.map_append, List.map_cons, List.map_nil]
    exact List.Nodup.append h (List.nodup_singleton k)
      (by simpa [List.disjoint_singleton] using hk)

/-- The record fold keeps keys distinct. -/
theorem keys_foldl_nodup :
    ∀ (ps m : Rec), (m.map Prod.fst).Nodup →
      ((ps.foldl (fun acc p => mapInsert acc p.1 p.2) m).map Prod.fst).Nodup
  | [], _, h => h
  | p :: ps, m, h => by
    simp only [List.foldl_cons]
    exact keys_foldl_nodup ps _ (keys_mapInsert_nodup m p.1 p.2 h)

/-- A key is present in the built record iff it is a key of the
accumulator or of one of the pairs. -/
theorem mem_keys_foldl :
    ∀ (ps m : Rec) (k : List Char),
      k ∈ (ps.foldl (fun acc p => mapInsert acc p.1 p.2) m).map Prod.fst ↔
        k ∈ m.map Prod.fst ∨ k ∈ ps.map Prod.fst
  | [], _, _ => by simp
  | p :: ps, m, k => by
    simp only [List.foldl_cons]
    rw [mem_keys_foldl ps _ k, mem_keys_mapInsert]
    simp only [List.map_cons, List.mem_cons]
    tauto

/-- C10: a data row matching the length of a duplicated header list is
still accepted, but the record holds strictly fewer pairs than the
header has fields, and each key reads back the value paired with the
last occurrence of that key. -/
theorem c10_duplicate_headers_last_wins (headers dataList : List (List Char))
    (hlen : dataList.length = headers.length) (hdup : ¬ headers.Nodup) :
    ∃ m, processLine headers dataList = some m ∧
      m.length < headers.length ∧
      ∀ k, mapLookup k m =
        ((headers.zip dataList).reverse.find? (fun p => p.1 = k)).map Prod.snd := by
  refine ⟨(headers.zip dataList).foldl (fun acc p => mapInsert acc p.1 p.2) [],
    ?_, ?_, ?_⟩
  · unfold processLine
    rw [if_neg (by omega)]
  · set m := (headers.zip dataList).foldl (fun acc p => mapInsert acc p.1 p.2) []
      with hm
    have hzip : (headers.zip dataList).map Prod.fst = headers :=
      List.map_fst_zip _ _ (by omega)
    have hnodup : (m.map Prod.fst).Nodup := keys_foldl_nodup _ [] (by simp)
    have hmem : ∀ k, k ∈ m.map Prod.fst ↔ k ∈ headers := by
      intro k
      rw [hm, mem_keys_foldl, hzip]
      simp
    have hperm : (m.map Prod.fst).Perm headers.dedup := by
      refine List.perm_of_nodup_nodup_toFinset_eq hnodup headers.nodup_dedup ?_
      ext x
      simp only [List.mem_toFinset, hmem, List.mem_dedup]
    have hlt : headers.dedup.length < headers.length := by
      rcases Nat.lt_or_ge headers.dedup.length headers.length with h | h
      · exact h
      · exfalso
        apply hdup
        rw [← List.dedup_eq_self]
        exact (headers.dedup_sublist).eq_of_length
          (Nat.le_antisymm (headers.dedup_sublist).length_le h)
    calc m.length = (m.map Prod.fst).length := (List.length_map _ _).symm
      _ = headers.dedup.length := hperm.length_eq
      _ < headers.length := hlt
  · intro k
    rw [mapLookup_foldl]
    simp [mapLookup]

/-- C10 witness: header `a,a` with row `1,2` gives a one-entry record
holding the value of the second `a` column. -/
theorem c10_duplicate_headers_last_wins_witness :
    ∃ m, processLine [['a'], ['a']] [['1'], ['2']] = some m ∧
      m.length < ([['a'], ['a']] : List (List Char)).length ∧
      ∀ k, mapLookup k m =
        (([['a'], ['a']].zip [['1'], ['2']]).reverse.find?
          (fun p => p.1 = k)).map Prod.snd :=
  c10_duplicate_headers_last_wins [['a'], ['a']] [['1'], ['2']]
    (by decide) (by decide)

/-! ## Byte-order lemmas (for C8 and C9) -/

theorem char_eq_of_toNat_eq {a b : Char} (h : a.toNat = b.toNat) : a = b :=
  Char.eq_of_val_eq (UInt32.eq_of_toBitVec_eq
    (BitVec.eq_of_toNat_eq (by simpa [UInt32.toNat] using h)))

theorem strLtB_irrefl : ∀ a, strLtB a a = false
  | [] => rfl
  | _ :: as => by simp [strLtB, strLtB_irrefl as]

theorem strLtB_trans :
    ∀ a b c, strLtB a b = true → strLtB b c = true → strLtB a c = true
  | [], [], _, h₁, _ => by simp [strLtB] at h₁
  | [], _ :: _, [], _, h₂ => by simp [strLtB] at h₂
  | [], _ :: _, _ :: _, _, _ => rfl
  | _ :: _, [], _, h₁, _ => by simp [strLtB] at h₁
  | _ :: _, _ :: _, [], _, h₂ => by simp [strLtB] at h₂
  | x :: as, y :: bs, z :: cs, h₁, h₂ => by
    simp only [strLtB] at h₁ h₂ ⊢
    by_cases hxy : x.toNat < y.toNat
    · by_cases hyz : y.toNat < z.toNat
      · rw [if_pos (by omega)]
      · by_cases hzy : z.toNat < y.toNat
        · rw [if_neg hyz, if_pos hzy] at h₂
          simp at h₂
        · rw [if_pos (by omega)]
    · by_cases hyx : y.toNat < x.toNat
      · rw [if_neg hxy, if_pos hyx] at h₁
        simp at h₁
      · rw [if_neg hxy, if_neg hyx] at h₁
        by_cases hyz : y.toNat < z.toNat
        · rw [if_pos (by omega)]
        · by_cases hzy : z.toNat < y.toNat
          · rw [if_neg hyz, if_pos hzy] at h₂
            simp at h₂
          · rw [if_neg hyz, if_neg hzy] at h₂
            rw [if_neg (by omega), if_neg (by omega)]
            exact strLtB_trans as bs cs h₁ h₂

theorem strLtB_conn :
    ∀ a b, strLtB a b = false → strLtB b a = false → a = b
  | [], [], _, _ => rfl
  | [], _ :: _, h₁, _ => by simp [strLtB] at h₁
  | _ :: _, [], _, h₂ => by simp [strLtB] at h₂
  | x :: as, y :: bs, h₁, h₂ => by
    simp only [strLtB] at h₁ h₂
    by_cases hxy : x.toNat < y.toNat
    · rw [if_pos hxy] at h₁
      simp at h₁
    · by_cases hyx : y.toNat < x.toNat
      · rw [if_pos hyx] at h₂
        simp at h₂
      · rw [if_neg hxy, if_neg hyx] at h₁
        rw [if_neg hyx, if_neg hxy] at h₂
        have hxyeq : x = y := char_eq_of_toNat_eq (by omega)
        rw [hxyeq, strLtB_conn as bs h₁ h₂]

theorem strLtB_asymm {a b : List Char} (h : strLtB a b = true) :
    strLtB b a = false := by
  cases hba : strLtB b a with
  | false => rfl
  | true =>
    have := strLtB_trans a b a h hba
    rw [strLtB_irrefl] at this
    simp at this

instance : IsTotal (List Char × List Char) entryLe :=
  ⟨fun p q => by
    unfold entryLe strLeB
    cases h : strLtB q.1 p.1 with
    | false => exact Or.inl (by simp)
    | true => exact Or.inr (by simp [strLtB_asymm h])⟩

instance : IsTrans (List Char × List Char) entryLe :=
  ⟨fun p q r h₁ h₂ => by
    unfold entryLe strLeB at h₁ h₂ ⊢
    have h₁' : strLtB q.1 p.1 = false := by simpa using h₁
    have h₂' : strLtB r.1 q.1 = false := by simpa using h₂
    cases hrp : strLtB r.1 p.1 with
    | false => simp
    | true =>
      exfalso
      cases hpq : strLtB p.1 q.1 with
      | true =>
        have := strLtB_trans r.1 p.1 q.1 hrp hpq
        rw [h₂'] at this
        simp at this
      | false =>
        have heq : p.1 = q.1 := strLtB_conn p.1 q.1 hpq h₁'
        rw [heq, h₂'] at hrp
        simp at hrp⟩

instance : IsAntisymm (List Char × List Char) entryLt :=
  ⟨fun p q h₁ h₂ => by
    unfold entryLt at h₁ h₂
    rw [strLtB_asymm h₁] at h₂
    simp at h₂⟩

theorem entryLt_of_le_ne {p q : List Char × List Char}
    (hle : entryLe p q) (hne : p.1 ≠ q.1) : entryLt p q := by
  unfold entryLe strLeB at hle
  unfold entryLt
  have h1 : strLtB q.1 p.1 = false := by simpa using hle
  cases h2 : strLtB p.1 q.1 with
  | true => rfl
  | false => exact absurd (strLtB_conn _ _ h2 h1) hne

theorem sortEntries_sorted (m : Rec) : List.Sorted entryLe (sortEntries m) :=
  List.sorted_insertionSort entryLe m

theorem sortEntries_perm (m : Rec) : (sortEntries m).Perm m :=
  List.perm_insertionSort entryLe m

theorem sortEntries_sorted_lt (m : Rec) (h : (m.map Prod.fst).Nodup) :
    List.Sorted entryLt (sortEntries m) := by
  have hnd : ((sortEntries m).map Prod.fst).Nodup :=
    h.perm ((sortEntries_perm m).symm.map Prod.fst)
  have hne : List.Pairwise (fun p q : List Char × List Char => p.1 ≠ q.1)
      (sortEntries m) := List.pairwise_map.mp hnd
  exact ((sortEntries_sorted m).and hne).imp
    (fun h => entryLt_of_le_ne h.1 h.2)

/-- Records that are permutations of each other (the same map contents
presented in different internal orders) serialize to the same sorted
entry list, provided the keys are distinct — which holds for every
record the reader builds. -/
theorem sortEntries_eq_of_perm {m₁ m₂ : Rec} (hp : m₁.Perm m₂)
    (hnd : (m₁.map Prod.fst).Nodup) : sortEntries m₁ = sortEntries m₂ :=
  List.eq_of_perm_of_sorted (r := entryLt)
    ((sortEntries_perm m₁).trans (hp.trans (sortEntries_perm m₂).symm))
    (sortEntries_sorted_lt m₁ hnd)
    (sortEntries_sorted_lt m₂ (hnd.perm (hp.map Prod.fst)))

/-- C9: the keys of every emitted JSON object appear in byte order
(the serializer sorts them), not in header column order: header `b,a`
yields the object `{"a":"2","b":"1"}`. -/
theorem c9_keys_serialized_in_sorted_order :
    (∀ m : Rec, List.Pairwise (fun a b => strLeB a b = true)
      ((sortEntries m).map Prod.fst)) ∧
    convert ',' false "b,a\n1,2\n".toList =
      some "[\x7b\"a\":\"2\",\"b\":\"1\"\x7d]".toList := by
  refine ⟨fun m => ?_, rfl⟩
  exact List.pairwise_map.mpr (sortEntries_sorted m)

/-- The per-record serializer depends only on the sorted entry list. -/
theorem getJSONFunc_congr (pretty : Bool) {r₁ r₂ : Rec}
    (h : sortEntries r₁ = sortEntries r₂) :
    (getJSONFunc pretty).1 r₁ = (getJSONFunc pretty).1 r₂ := by
  cases pretty <;> simp [getJSONFunc, h]

/-- The writer loop writes identical traces for pointwise
serializer-equal record sequences. -/
theorem writerLoopTrace_congr (jf : Rec → List Char) (bl : List Char) :
    ∀ {rs₁ rs₂ : List Rec},
      List.Forall₂ (fun a b => jf a = jf b) rs₁ rs₂ →
      ∀ f, writerLoopTrace jf bl f rs₁ = writerLoopTrace jf bl f rs₂ := by
  intro rs₁ rs₂ h
  induction h with
  | nil => intro _; rfl
  | cons hab hrest ih =>
    intro f
    simp only [writerLoopTrace, hab, ih false]

/-- Pairwise-permuted records with duplicate-free keys serialize
pointwise equally. -/
theorem forall2_serialize_eq (pretty : Bool) :
    ∀ {rs₁ rs₂ : List Rec}, List.Forall₂ (fun a b => a.Perm b) rs₁ rs₂ →
      (∀ r ∈ rs₁, (r.map Prod.fst).Nodup) →
      List.Forall₂
        (fun a b => (getJSONFunc pretty).1 a = (getJSONFunc pretty).1 b) rs₁ rs₂
  | _, _, .nil, _ => .nil
  | _, _, .cons hab hrest, hnd =>
    .cons
      (getJSONFunc_congr pretty
        (sortEntries_eq_of_perm hab (hnd _ (List.mem_cons_self _ _))))
      (forall2_serialize_eq pretty hrest
        (fun r hr => hnd r (List.mem_cons_of_mem _ hr)))

/-- C8: determinism of the output bytes.  The embedding is a function of
the input, so the only run-to-run variation in the Go program is the
iteration order of each record's `map[string]string`; since
`json.Marshal` sorts the keys, any two presentations of the same records
(pairwise permutations, keys distinct as the reader guarantees) produce
byte-identical output for the same pretty flag. -/
theorem c8_output_independent_of_map_order (pretty : Bool)
    (rs₁ rs₂ : List Rec)
    (hperm : List.Forall₂ (fun a b => a.Perm b) rs₁ rs₂)
    (hnd : ∀ r ∈ rs₁, (r.map Prod.fst).Nodup) :
    writeOut pretty rs₁ = writeOut pretty rs₂ := by
  have hjf := forall2_serialize_eq pretty hperm hnd
  unfold writeOut writeTrace
  rw [writerLoopTrace_congr (getJSONFunc pretty).1 (getJSONFunc pretty).2 hjf true]

/-- C8 witness: the record of scenario B presented in its two possible
map orders writes the same bytes. -/
theorem c8_output_independent_of_map_order_witness :
    writeOut false [[(['a'], ['1']), (['b'], ['2'])]] =
      writeOut false [[(['b'], ['2']), (['a'], ['1'])]] :=
  c8_output_independent_of_map_order false
    [[(['a'], ['1']), (['b'], ['2'])]] [[(['b'], ['2']), (['a'], ['1'])]]
    (.cons (by decide) .nil) (by decide)

/-! ## Writer state machine lemmas (C3) -/

/-- The `writeJSONFile` loop's trace is exactly the state-machine run on
the channel events (each record, then the closure). -/
theorem writerLoopTrace_eq_run (pretty : Bool) :
    ∀ (records : List Rec) (first : Bool),
      writerLoopTrace (getJSONFunc pretty).1 (getJSONFunc pretty).2
          first records =
        (writerRun pretty (if first then .awaitingFirst else .streaming)
          (records.map some ++ [none])).2
  | [], first => by cases first <;> rfl
  | r :: rs, first => by
    cases first <;>
      simp [writerLoopTrace, writerRun, writerStep,
        writerLoopTrace_eq_run pretty rs false]

/-- After the channel closes the state machine is in `Closed`, whether
zero or more records were received. -/
theorem writerRun_closes (pretty : Bool) :
    ∀ (records : List Rec) (st : WriterState),
      (writerRun pretty st (records.map some ++ [none])).1 = .closedSt
  | [], st => by cases st <;> rfl
  | r :: rs, st => by
    cases st <;> simp [writerRun, writerStep, writerRun_closes pretty rs]

/-- The loop trace consists of non-closing chunks followed by exactly one
closing chunk, the array-close write. -/
theorem writerLoopTrace_structure (jf : Rec → List Char) (bl : List Char) :
    ∀ (records : List Rec) (first : Bool),
      ∃ pre, writerLoopTrace jf bl first records =
          pre ++ [(bl ++ [']'], true)] ∧ ∀ ch ∈ pre, ch.2 = false
  | [], _ => ⟨[], rfl, by simp⟩
  | r :: rs, first => by
    obtain ⟨pre, heq, hpre⟩ := writerLoopTrace_structure jf bl rs false
    refine ⟨(if first then [] else [(',' :: bl, false)]) ++ (jf r, false) :: pre,
      ?_, ?_⟩
    · simp only [writerLoopTrace, heq, List.append_assoc, List.cons_append]
    · intro ch hch
      rcases List.mem_append.mp hch with h | h
      · cases first with
        | true => simp at h
        | false =>
          have : ch = (',' :: bl, false) := by simpa using h
          rw [this]
      · rcases List.mem_cons.mp h with rfl | h'
        · rfl
        · exact hpre ch h'

/-- C3: `writeJSONFile` implements the Writer state machine
`AwaitingFirst → Streaming → Closed`: its write trace equals the
state-machine run from `AwaitingFirst` over the received records
followed by the channel closure (so the first record gets no leading
separator and every later one is preceded by `","+breakLine`), the run
ends in `Closed` whether zero or more records arrived, no transition
lowers the state, and the trace is non-closing writes followed by
exactly one closing write — the array-close — which also closes the
sink. -/
theorem c3_writer_state_machine (pretty : Bool) (records : List Rec) :
    writeTrace pretty records =
      ('[' :: (getJSONFunc pretty).2, false) ::
        (writerRun pretty .awaitingFirst (records.map some ++ [none])).2 ∧
    (writerRun pretty .awaitingFirst (records.map some ++ [none])).1 =
      .closedSt ∧
    (∀ st msg, stateRank st ≤ stateRank (writerStep pretty st msg).1) ∧
    (∃ pre, writeTrace pretty records =
        pre ++ [((getJSONFunc pretty).2 ++ [']'], true)] ∧
      ∀ ch ∈ pre, ch.2 = false) := by
  refine ⟨?_, writerRun_closes pretty records .awaitingFirst, ?_, ?_⟩
  · unfold writeTrace
    rw [writerLoopTrace_eq_run pretty records true]
    rfl
  · intro st msg
    cases st <;> cases msg <;> simp [writerStep, stateRank]
  · obtain ⟨pre, heq, hpre⟩ := writerLoopTrace_structure
      (getJSONFunc pretty).1 (getJSONFunc pretty).2 records true
    refine ⟨('[' :: (getJSONFunc pretty).2, false) :: pre, ?_, ?_⟩
    · simp [writeTrace, heq]
    · intro ch hch
      rcases List.mem_cons.mp hch with rfl | h
      · rfl
      · exact hpre ch h

/-! ## Validation before the pipeline (C6) -/

/-- C6: if the input path's extension is not `.csv` or the path does not
exist, `main` exits non-zero during validation — before the goroutines
start, hence before `createStringWriter` can `os.Create` the output file
(file creation only happens in the `pipeline` outcome). -/
theorem c6_invalid_input_exits_before_output (hasArg : Bool)
    (separator path content : List Char) (pretty : Bool)
    (statNotExist : List Char → Bool)
    (h : filepathExt path ≠ ['.', 'c', 's', 'v'] ∨ statNotExist path = true) :
    mainRun hasArg separator statNotExist path pretty content = .earlyExit := by
  unfold mainRun
  by_cases h1 : ¬ hasArg
  · rw [if_pos h1]
  · rw [if_neg h1]
    by_cases h2 : ¬ (separator = ['c', 'o', 'm', 'm', 'a'] ∨
        separator = ['s', 'e', 'm', 'i', 'c', 'o', 'l', 'o', 'n'])
    · rw [if_pos h2]
    · rw [if_neg h2]
      have hne : checkIfValidFile statNotExist path ≠ .ok := by
        unfold checkIfValidFile
        by_cases h3 : filepathExt path ≠ ['.', 'c', 's', 'v']
        · rw [if_pos h3]
          simp
        · rcases h with h | h
          · exact absurd h h3
          · rw [if_neg h3, if_pos h]
            simp
      cases hc : checkIfValidFile statNotExist path with
      | ok => exact absurd hc hne
      | notCsv => rfl
      | notExist => rfl

/-- C6 witness: a path reported missing by `os.Stat` makes `main` exit
before the pipeline. -/
theorem c6_invalid_input_exits_before_output_witness :
    mainRun true ['c', 'o', 'm', 'm', 'a'] (fun _ => true)
      "data.csv".toList false [] = .earlyExit :=
  c6_invalid_input_exits_before_output true ['c', 'o', 'm', 'm', 'a']
    "data.csv".toList [] false (fun _ => true) (Or.inr rfl)

/-! ## Path lemmas (C5) -/

theorem takeWhile_append_all {α : Type} (p : α → Bool) :
    ∀ (ys : List α) (c : α) (zs : List α), (∀ x ∈ ys, p x = true) →
      p c = false → (ys ++ c :: zs).takeWhile p = ys
  | [], c, zs, _, hc => by simp [List.takeWhile_cons, hc]
  | y :: ys, c, zs, hall, hc => by
    simp only [List.cons_append, List.takeWhile_cons, hall y (by simp),
      if_true, takeWhile_append_all p ys c zs
        (fun x hx => hall x (by simp [hx])) hc]

theorem dropWhile_append_all {α : Type} (p : α → Bool) :
    ∀ (ys : List α) (c : α) (zs : List α), (∀ x ∈ ys, p x = true) →
      p c = false → (ys ++ c :: zs).dropWhile p = c :: zs
  | [], c, zs, _, hc => by simp [List.dropWhile_cons, hc]
  | y :: ys, c, zs, hall, hc => by
    simp only [List.cons_append, List.dropWhile_cons, hall y (by simp),
      if_true, dropWhile_append_all p ys c zs
        (fun x hx => hall x (by simp [hx])) hc]

/-- Splitting a list with an extra trailing delimiter produces the same
chunks plus one empty chunk. -/
theorem splitCharAux_append_delim (delim : Char) :
    ∀ (xs cur : List Char),
      splitCharAux delim cur (xs ++ [delim]) =
        splitCharAux delim cur xs ++ [[]]
  | [], cur => by simp [splitCharAux]
  | x :: xs, cur => by
    by_cases hx : x = delim <;>
      simp [splitCharAux, hx, splitCharAux_append_delim delim xs]

/-- A trailing slash does not change a nonempty path's `Clean`. -/
theorem cleanL_append_slash (d : List Char) (hd : d ≠ []) :
    cleanL (d ++ ['/']) = cleanL d := by
  unfold cleanL
  have hhead : (d ++ ['/']).head? = d.head? := by
    cases d with
    | nil => exact absurd rfl hd
    | cons x xs => rfl
  have hsegs : splitCharAux '/' [] (d ++ ['/']) =
      splitCharAux '/' [] d ++ [[]] := splitCharAux_append_delim '/' d []
  rw [hhead, hsegs, List.filter_append]
  simp

/-- `filepath.Base` of `dir/name.csv` with a slash-free `name`. -/
theorem baseL_of_dir_name (d name : List Char)
    (hname : ∀ c ∈ name, c ≠ '/') :
    baseL (d ++ '/' :: name ++ ['.', 'c', 's', 'v']) =
      name ++ ['.', 'c', 's', 'v'] := by
  unfold baseL
  have hne : d ++ '/' :: name ++ ['.', 'c', 's', 'v'] ≠ [] := by simp
  have hrev : (d ++ '/' :: name ++ ['.', 'c', 's', 'v']).reverse =
      'v' :: 's' :: 'c' :: '.' :: (name.reverse ++ '/' :: d.reverse) := by
    simp
  have hdrop : ('v' :: 's' :: 'c' :: '.' ::
      (name.reverse ++ '/' :: d.reverse)).dropWhile (fun c => c = '/') =
      'v' :: 's' :: 'c' :: '.' :: (name.reverse ++ '/' :: d.reverse) :=
    List.dropWhile_cons_of_neg (by simp)
  have htake : ('v' :: 's' :: 'c' :: '.' ::
      (name.reverse ++ '/' :: d.reverse)).takeWhile (fun c => ¬ c = '/') =
      'v' :: 's' :: 'c' :: '.' :: name.reverse := by
    have hshape : 'v' :: 's' :: 'c' :: '.' ::
        (name.reverse ++ '/' :: d.reverse) =
        ('v' :: 's' :: 'c' :: '.' :: name.reverse) ++ '/' :: d.reverse := by
      simp
    rw [hshape]
    apply takeWhile_append_all
    · intro x hx
      rcases List.mem_cons.mp hx with rfl | hx
      · decide
      rcases List.mem_cons.mp hx with rfl | hx
      · decide
      rcases List.mem_cons.mp hx with rfl | hx
      · decide
      rcases List.mem_cons.mp hx with rfl | hx
      · decide
      · simpa using hname x (List.mem_reverse.mp hx)
    · decide
  rw [if_neg hne, hrev, hdrop]
  rw [if_neg (by simp)]
  rw [htake]
  simp

/-- `filepath.Dir` of `dir/name.csv` with a slash-free `name` is the
cleaned `dir`. -/
theorem dirL_of_dir_name (d name : List Char) (hd : d ≠ [])
    (hname : ∀ c ∈ name, c ≠ '/') :
    dirL (d ++ '/' :: name ++ ['.', 'c', 's', 'v']) = cleanL d := by
  unfold dirL
  have hrev : (d ++ '/' :: name ++ ['.', 'c', 's', 'v']).reverse =
      ('v' :: 's' :: 'c' :: '.' :: name.reverse) ++ '/' :: d.reverse := by
    simp
  have hdrop : (('v' :: 's' :: 'c' :: '.' :: name.reverse) ++
      '/' :: d.reverse).dropWhile (fun c => ¬ c = '/') = '/' :: d.reverse := by
    apply dropWhile_append_all
    · intro x hx
      rcases List.mem_cons.mp hx with rfl | hx
      · decide
      rcases List.mem_cons.mp hx with rfl | hx
      · decide
      rcases List.mem_cons.mp hx with rfl | hx
      · decide
      rcases List.mem_cons.mp hx with rfl | hx
      · decide
      · simpa using hname x (List.mem_reverse.mp hx)
    · decide
  rw [hrev, hdrop]
  have : ('/' :: d.reverse).reverse = d ++ ['/'] := by simp
  rw [this, cleanL_append_slash d hd]

/-- `strings.TrimSuffix` removes a present suffix. -/
theorem trimSuffixL_append (name suf : List Char) :
    trimSuffixL (name ++ suf) suf = name := by
  unfold trimSuffixL
  rw [if_pos (List.isSuffixOf_iff_suffix.mpr (List.suffix_append name suf))]
  simp [List.take_left]

/-- C5: the output path derived by `createStringWriter` keeps the input's
directory and base name and replaces the `.csv` extension with `.json`:
for any clean nonempty directory `d` and slash-free base name `name`,
`d/name.csv` is written to `d/name.json`. -/
theorem c5_output_path_derivation (d name : List Char)
    (hclean : cleanL d = d) (hd : d ≠ []) (hname : ∀ c ∈ name, c ≠ '/') :
    finalLocation (d ++ '/' :: name ++ ['.', 'c', 's', 'v']) =
      d ++ '/' :: name ++ ['.', 'j', 's', 'o', 'n'] := by
  unfold finalLocation
  rw [baseL_of_dir_name d name hname, dirL_of_dir_name d name hd hname,
    hclean, trimSuffixL_append name ['.', 'c', 's', 'v']]

/-- C5 witness: `dir/data.csv` is written to `dir/data.json`. -/
theorem c5_output_path_derivation_witness :
    finalLocation "dir/data.csv".toList = "dir/data.json".toList :=
  c5_output_path_derivation ['d', 'i', 'r'] ['d', 'a', 't', 'a']
    (by decide) (by decide) (by decide)

/-! ## Whitespace scanner lemmas (C7) -/

theorem scanSt_append :
    ∀ (a : List Char) (s : Bool × Bool) (b : List Char),
      scanSt s (a ++ b) = scanSt (scanSt s a) b
  | [], _, _ => rfl
  | c :: a, s, b => by
    simp only [List.cons_append, scanSt]
    exact scanSt_append a _ b

theorem stripAux_append :
    ∀ (a : List Char) (s : Bool × Bool) (b : List Char),
      stripAux s (a ++ b) = stripAux s a ++ stripAux (scanSt s a) b
  | [], _, _ => rfl
  | c :: a, s, b => by
    simp only [List.cons_append, stripAux, scanSt]
    rw [show a.append b = a ++ b from rfl]
    by_cases h : (!s.1 && isWsChar c) = true
    · rw [if_pos h, if_pos h, stripAux_append a _ b]
    · rw [if_neg h, if_neg h, stripAux_append a _ b, List.cons_append]

theorem scanStep_hexDigit (n : Nat) (h : n < 16) :
    scanStep (true, false) (hexDigitChar n) = (true, false) := by
  interval_cases n <;> decide

/-- Inside a string literal the scanner stays inside across any single
character escape the encoder emits. -/
theorem scanSt_escape (c : Char) :
    scanSt (true, false) (jsonEscapeChar c) = (true, false) := by
  unfold jsonEscapeChar
  split_ifs with h1 h2 h3 h4 h5 h6 h7 h8
  · decide
  · decide
  · decide
  · decide
  · decide
  · rcases h6 with rfl | rfl | rfl <;> decide
  · show scanSt (true, false) (['\\', 'u', '0', '0'] ++
      [hexDigitChar (c.toNat / 16), hexDigitChar (c.toNat % 16)]) = _
    rw [scanSt_append,
      show scanSt (true, false) ['\\', 'u', '0', '0'] = (true, false) from by
        decide]
    simp only [scanSt]
    rw [scanStep_hexDigit _ (by omega), scanStep_hexDigit _ (by omega)]
  · rcases h8 with h | h <;> rw [h] <;> decide
  · simp only [scanSt, scanStep]
    rw [if_neg h2, if_neg h1]

/-- Inside a string literal the stripper keeps every character of an
escape sequence. -/
theorem stripAux_escape (c : Char) :
    stripAux (true, false) (jsonEscapeChar c) = jsonEscapeChar c := by
  unfold jsonEscapeChar
  split_ifs with h1 h2 h3 h4 h5 h6 h7 h8
  · decide
  · decide
  · decide
  · decide
  · decide
  · rcases h6 with rfl | rfl | rfl <;> decide
  · show stripAux (true, false) (['\\', 'u', '0', '0'] ++
      [hexDigitChar (c.toNat / 16), hexDigitChar (c.toNat % 16)]) = _
    rw [stripAux_append,
      show stripAux (true, false) ['\\', 'u', '0', '0'] = ['\\', 'u', '0', '0']
        from by decide,
      show scanSt (true, false) ['\\', 'u', '0', '0'] = (true, false) from by
        decide]
    have hx1 := scanStep_hexDigit (c.toNat / 16) (by omega)
    have hx2 := scanStep_hexDigit (c.toNat % 16) (by omega)
    simp [stripAux, hx1, hx2]
  · rcases h8 with h | h <;> rw [h] <;> decide
  · simp [stripAux]

theorem scanSt_escBody :
    ∀ s : List Char,
      scanSt (true, false) ((s.map jsonEscapeChar).flatten) = (true, false)
  | [] => rfl
  | c :: s => by
    simp only [List.map_cons, List.flatten_cons]
    rw [scanSt_append, scanSt_escape, scanSt_escBody s]

theorem stripAux_escBody :
    ∀ s : List Char,
      stripAux (true, false) ((s.map jsonEscapeChar).flatten) =
        (s.map jsonEscapeChar).flatten
  | [] => rfl
  | c :: s => by
    simp only [List.map_cons, List.flatten_cons]
    rw [stripAux_append, scanSt_escape, stripAux_escape, stripAux_escBody s]

/-- `StripsTo` composes over concatenation. -/
theorem StripsTo.append {a a' b b' : List Char}
    (ha : StripsTo a a') (hb : StripsTo b b') :
    StripsTo (a ++ b) (a' ++ b') := by
  obtain ⟨ha1, ha2⟩ := ha
  obtain ⟨hb1, hb2⟩ := hb
  exact ⟨by rw [stripAux_append, ha1, ha2, hb1],
    by rw [scanSt_append, ha2, hb2]⟩

/-- A string literal is untouched by stripping (whitespace inside the
quotes is data, not layout). -/
theorem stripsTo_quote (s : List Char) :
    StripsTo (quoteJson s) (quoteJson s) := by
  constructor
  · show stripAux (false, false)
      ('"' :: ((s.map jsonEscapeChar).flatten ++ ['"'])) = _
    simp only [stripAux]
    rw [if_neg (by decide),
      show scanStep (false, false) '"' = (true, false) from by decide,
      stripAux_append, stripAux_escBody, scanSt_escBody,
      show stripAux (true, false) ['"'] = ['"'] from by decide]
    rfl
  · show scanSt (false, false)
      ('"' :: ((s.map jsonEscapeChar).flatten ++ ['"'])) = _
    simp only [scanSt]
    rw [show scanStep (false, false) '"' = (true, false) from by decide,
      scanSt_append, scanSt_escBody]
    decide

/-- A pretty `"key": "value"` line strips to the compact pair. -/
theorem stripsTo_entry (p : List Char × List Char) :
    StripsTo (prettyEntry p) (compactEntry p) := by
  have h := (show StripsTo [' ', ' ', ' ', ' ', ' ', ' '] [] from
      ⟨by decide, by decide⟩).append
    ((stripsTo_quote p.1).append
      ((show StripsTo [':', ' '] [':'] from ⟨by decide, by decide⟩).append
        (stripsTo_quote p.2)))
  simpa [prettyEntry, compactEntry] using h

/-- A compact `"key":"value"` pair is already whitespace-free. -/
theorem stripsTo_entry_compact (p : List Char × List Char) :
    StripsTo (compactEntry p) (compactEntry p) := by
  have h := (stripsTo_quote p.1).append
    ((show StripsTo [':'] [':'] from ⟨by decide, by decide⟩).append
      (stripsTo_quote p.2))
  simpa [compactEntry] using h

/-- Pretty-joined entries strip to compact-joined entries. -/
theorem stripsTo_joinSep_entries :
    ∀ es : Rec,
      StripsTo (joinSep [',', '\n'] (es.map prettyEntry))
        (joinSep [','] (es.map compactEntry))
  | [] => ⟨rfl, rfl⟩
  | [e] => by simpa [joinSep] using stripsTo_entry e
  | e :: e' :: rest => by
    have h := (stripsTo_entry e).append
      ((show StripsTo [',', '\n'] [','] from ⟨by decide, by decide⟩).append
        (stripsTo_joinSep_entries (e' :: rest)))
    simpa [joinSep, List.append_assoc] using h

/-- Compact-joined entries are already whitespace-free. -/
theorem stripsTo_joinSep_entries_compact :
    ∀ es : Rec,
      StripsTo (joinSep [','] (es.map compactEntry))
        (joinSep [','] (es.map compactEntry))
  | [] => ⟨rfl, rfl⟩
  | [e] => by simpa [joinSep] using stripsTo_entry_compact e
  | e :: e' :: rest => by
    have h := (stripsTo_entry_compact e).append
      ((show StripsTo [','] [','] from ⟨by decide, by decide⟩).append
        (stripsTo_joinSep_entries_compact (e' :: rest)))
    simpa [joinSep, List.append_assoc] using h

/-- An indented object strips to the compact object. -/
theorem stripsTo_obj (es : Rec) : StripsTo (prettyObj es) (compactObj es) := by
  by_cases h : es = []
  · subst h
    exact ⟨by decide, by decide⟩
  · unfold prettyObj compactObj
    rw [if_neg h]
    have h1 : StripsTo ['{', '\n'] ['{'] := ⟨by decide, by decide⟩
    have h3 : StripsTo ['\n', ' ', ' ', ' ', '}'] ['}'] := ⟨by decide, by decide⟩
    have hh := h1.append ((stripsTo_joinSep_entries es).append h3)
    simpa [List.append_assoc] using hh

/-- A compact object is already whitespace-free. -/
theorem stripsTo_obj_compact (es : Rec) :
    StripsTo (compactObj es) (compactObj es) := by
  unfold compactObj
  have h1 : StripsTo ['{'] ['{'] := ⟨by decide, by decide⟩
  have h3 : StripsTo ['}'] ['}'] := ⟨by decide, by decide⟩
  have hh := h1.append ((stripsTo_joinSep_entries_compact es).append h3)
  simpa [List.append_assoc] using hh

/-- The pretty per-record serializer strips to the compact one. -/
theorem stripsTo_jf (r : Rec) :
    StripsTo ((getJSONFunc true).1 r) ((getJSONFunc false).1 r) := by
  have h := (show StripsTo [' ', ' ', ' '] [] from ⟨by decide, by decide⟩).append
    (stripsTo_obj (sortEntries r))
  simpa [getJSONFunc] using h

/-- The compact per-record serializer is already whitespace-free. -/
theorem stripsTo_jf_compact (r : Rec) :
    StripsTo ((getJSONFunc false).1 r) ((getJSONFunc false).1 r) := by
  have h := stripsTo_obj_compact (sortEntries r)
  simpa [getJSONFunc] using h

theorem loopOut_nil (pretty f : Bool) :
    loopOut pretty f [] = (getJSONFunc pretty).2 ++ [']'] := by
  simp [loopOut, writerLoopTrace]

theorem loopOut_cons (pretty f : Bool) (r : Rec) (rs : List Rec) :
    loopOut pretty f (r :: rs) =
      (if f then [] else ',' :: (getJSONFunc pretty).2) ++
        ((getJSONFunc pretty).1 r ++ loopOut pretty false rs) := by
  cases f <;> simp [loopOut, writerLoopTrace]

/-- The pretty loop output strips to the compact loop output. -/
theorem stripsTo_loop :
    ∀ (rs : List Rec) (f : Bool),
      StripsTo (loopOut true f rs) (loopOut false f rs)
  | [], f => by
    rw [loopOut_nil, loopOut_nil]
    exact ⟨by decide, by decide⟩
  | r :: rs, f => by
    rw [loopOut_cons, loopOut_cons]
    have hsep : StripsTo (if f then ([] : List Char)
        else ',' :: (getJSONFunc true).2)
        (if f then [] else ',' :: (getJSONFunc false).2) := by
      cases f
      · exact ⟨by decide, by decide⟩
      · exact ⟨by decide, by decide⟩
    exact hsep.append ((stripsTo_jf r).append (stripsTo_loop rs false))

/-- The compact loop output is already whitespace-free. -/
theorem stripsTo_loop_compact :
    ∀ (rs : List Rec) (f : Bool),
      StripsTo (loopOut false f rs) (loopOut false f rs)
  | [], f => by
    rw [loopOut_nil]
    exact ⟨by decide, by decide⟩
  | r :: rs, f => by
    rw [loopOut_cons]
    have hsep : StripsTo (if f then ([] : List Char)
        else ',' :: (getJSONFunc false).2)
        (if f then [] else ',' :: (getJSONFunc false).2) := by
      cases f
      · exact ⟨by decide, by decide⟩
      · exact ⟨by decide, by decide⟩
    exact hsep.append ((stripsTo_jf_compact r).append
      (stripsTo_loop_compact rs false))

theorem writeOut_eq (pretty : Bool) (records : List Rec) :
    writeOut pretty records =
      ('[' :: (getJSONFunc pretty).2) ++ loopOut pretty true records := by
  simp [writeOut, writeTrace, loopOut]

/-- C7: the pretty and non-pretty outputs for the same records differ
only in whitespace outside string literals: stripping that whitespace
from the pretty output yields exactly the non-pretty output, and the
non-pretty output contains none to begin with.  Hence the two outputs
parse back to the same ordered list of objects with the same key/value
pairs. -/
theorem c7_pretty_and_compact_differ_only_in_whitespace (records : List Rec) :
    stripJsonWs (writeOut true records) = writeOut false records ∧
    stripJsonWs (writeOut false records) = writeOut false records := by
  constructor
  · have h := (show StripsTo ['[', '\n'] ['['] from
        ⟨by decide, by decide⟩).append (stripsTo_loop records true)
    rw [writeOut_eq, writeOut_eq]
    exact h.1
  · have h := (show StripsTo ['['] ['['] from
        ⟨by decide, by decide⟩).append (stripsTo_loop_compact records true)
    rw [writeOut_eq]
    exact h.1

end CsvToJson
